import Mathlib

/-!
# norgesglass: extraction and resilience layer

A shallow embedding of the handlers package (`ngu.go`, `narvesen.go`, `nve.go`).
Go strings are Lean strings and Go byte slices are lists of bytes. Calls into the Go
standard library (`strconv.ParseFloat`, `regexp`, `html`, `math`, `fmt`, `net/http`)
are parameters of the definitions that use them; `ParseNGUGML` takes the token stream of
its decoder, and the strict decoder of `encoding/xml` is described by `decode`. The
reference readings of the library functions serve to evaluate the definitions on
concrete inputs.
-/

namespace Norgesglass

deriving instance DecidableEq for Except

/-! ## strings helpers -/

/-- The Go predicate `unicode.IsSpace`. -/
def isSpace (c : Char) : Bool :=
  let n := c.toNat
  n == 0x09 || n == 0x0A || n == 0x0B || n == 0x0C || n == 0x0D || n == 0x20 ||
  n == 0x85 || n == 0xA0 || n == 0x1680 || (0x2000 ≤ n && n ≤ 0x200A) ||
  n == 0x2028 || n == 0x2029 || n == 0x202F || n == 0x205F || n == 0x3000

/-- The Go function `strings.TrimSpace`: drops leading and trailing white space. -/
def trimSpace (s : String) : String :=
  String.mk ((s.toList.dropWhile isSpace).reverse.dropWhile isSpace).reverse

/-- The Go function `strings.HasSuffix`. -/
def hasSuffix (s suffix : String) : Bool :=
  suffix.toList.isSuffixOf s.toList

/-! ## ngu.go: ParseNGUGML -/

/-- The tokens `xml.Decoder.Token` hands out. Only the local name of an element is
read by the parser; comments, processing instructions and directives are `other`. -/
inductive Token where
  | StartElement (local_ : String)
  | CharData (text : String)
  | EndElement (local_ : String)
  | other
  deriving DecidableEq, Repr

/-- How the decoder's token sequence stops: `io.EOF`, or another error. -/
inductive Ending where
  | eof
  | fail (msg : String)
  deriving DecidableEq, Repr

/-- The successive results of `decoder.Token()`: the tokens, then the ending. -/
structure TokenStream where
  tokens : List Token
  ending : Ending
  deriving DecidableEq, Repr

/-- A Go `map[string]string`, as a list of entries with distinct keys. -/
abbrev Fields := List (String × String)

/-- The Go map read `fields[k]` with presence flag. -/
def Fields.get (m : Fields) (k : String) : Option String :=
  match m with
  | [] => none
  | (k', v') :: rest => if k' = k then some v' else Fields.get rest k

/-- The Go map write `fields[k] = v`. -/
def Fields.set (m : Fields) (k v : String) : Fields :=
  match m with
  | [] => [(k, v)]
  | (k', v') :: rest => if k' = k then (k', v) :: rest else (k', v') :: Fields.set rest k v

/-- The local variables of the token loop of `ParseNGUGML`. -/
structure ParserState where
  fields : Fields
  inFeature : Bool
  currentTag : String
  deriving DecidableEq, Repr

/-- What one pass through the loop body does: go on with the next token, or return. -/
inductive Step where
  | next (s : ParserState)
  | ret (fields : Fields)
  deriving DecidableEq, Repr

/-- The `switch` of the loop body of `ParseNGUGML`, for one token. -/
def parseStep (s : ParserState) : Token → Step
  | .StartElement name =>
    if hasSuffix name "_feature" then
      .next { s with inFeature := true }
    else if s.inFeature then
      .next { s with currentTag := name }
    else
      .next s
  | .CharData t =>
    if s.inFeature && s.currentTag != "" then
      let text := trimSpace t
      if text != "" then
        .next { s with fields := s.fields.set s.currentTag text }
      else
        .next s
    else
      .next s
  | .EndElement name =>
    if hasSuffix name "_feature" then
      .ret s.fields
    else if s.inFeature then
      .next { s with currentTag := "" }
    else
      .next s
  | .other => .next s

/-- The `for` loop of `ParseNGUGML`: `io.EOF` breaks out and returns the fields,
any other decoder error is returned wrapped, a token is dispatched by `parseStep`. -/
def parseLoop (s : ParserState) : List Token → Ending → Except String Fields
  | [], .eof => .ok s.fields
  | [], .fail msg => .error ("parsing GML: " ++ msg)
  | t :: ts, e =>
    match parseStep s t with
    | .next s' => parseLoop s' ts e
    | .ret fields => .ok fields

/-- The initial values of the locals of `ParseNGUGML`. -/
def ParserState.init : ParserState :=
  { fields := [], inFeature := false, currentTag := "" }

/-- The function `ParseNGUGML` of ngu.go, on the decoder's token stream. -/
def ParseNGUGML (r : TokenStream) : Except String Fields :=
  parseLoop ParserState.init r.tokens r.ending

/-- A token opening or closing a feature container. -/
def Token.isFeatureTag : Token → Bool
  | .StartElement name => hasSuffix name "_feature"
  | .EndElement name => hasSuffix name "_feature"
  | _ => false

/-- A token closing a feature container. -/
def Token.isFeatureEnd : Token → Bool
  | .EndElement name => hasSuffix name "_feature"
  | _ => false

/-- A token opening a feature container. -/
def Token.isFeatureStart : Token → Bool
  | .StartElement name => hasSuffix name "_feature"
  | _ => false

/-- The locals after one token that does not make the parser return. -/
def nextState (s : ParserState) (t : Token) : ParserState :=
  match parseStep s t with
  | .next s' => s'
  | .ret _ => s

/-- The locals after a run of tokens none of which makes the parser return. -/
def advance (s : ParserState) (body : List Token) : ParserState :=
  body.foldl nextState s

/-- The check the decoder makes on element nesting: every closing tag matches the
innermost open element, and nothing is left open at the end. -/
def wellNested : List String → List Token → Bool
  | stack, [] => stack.isEmpty
  | stack, .StartElement n :: ts => wellNested (n :: stack) ts
  | [], .EndElement _ :: _ => false
  | top :: stack, .EndElement n :: ts => top == n && wellNested stack ts
  | stack, _ :: ts => wellNested stack ts

/-- The first of two optional texts that is present. -/
def firstSome : Option String → Option String → Option String
  | some a, _ => some a
  | none, b => b

/-- The text a character-data token stores: its trimmed text, unless that is empty. -/
def storedText (c : String) : Option String :=
  if trimSpace c != "" then some (trimSpace c) else none

/-- The text stored by the character data that directly follows an opening tag: that of
the last non-blank character-data token before the next opening or closing tag. -/
def leadingText : List Token → Option String
  | .CharData c :: ts => firstSome (leadingText ts) (storedText c)
  | .other :: ts => leadingText ts
  | _ => none

/-- The text the state machine of the specification leaves under the field name `k`
after the tokens of a feature container: the text stored after the last opening tag of
`k` that is directly followed by non-blank character data. -/
def fieldText (k : String) : List Token → Option String
  | [] => none
  | t :: ts =>
    if t = .StartElement k then firstSome (fieldText k ts) (leadingText ts)
    else fieldText k ts

/-! ## The decoder of ngu.go

The call `xml.NewDecoder(r)` gives a strict decoder with no `CharsetReader`. The package
`encoding/xml` is not part of the repository; the definitions below follow its
documented behaviour on the XML declaration and on element nesting. -/

/-- An XML document as the decoder meets it: the version and the encoding named by its
XML declaration, when it has one (the empty string for an attribute left out), and the
tokens of the text after the declaration. -/
structure Document where
  decl : Option (String × String)
  content : List Token
  deriving DecidableEq, Repr

/-- Every closing tag of the document matches the innermost open element and no element
is left open. -/
def Document.wellFormed (d : Document) : Bool :=
  wellNested [] d.content

/-- The text of a Go `xml.SyntaxError` raised on line `line`. -/
def syntaxError (line : Nat) (msg : String) : String :=
  "XML syntax error on line " ++ toString line ++ ": " ++ msg

/-- The tokens the strict decoder hands out for a text, given the line reached (one more
than the line breaks read in character data; tags are taken to hold none) and the
elements open so far: a closing tag that does not match the innermost open element, and
the end of the text with an element open, are syntax errors; `io.EOF` comes only with no
element open. -/
def strictTokens : Nat → List String → List Token → TokenStream
  | _, [], [] => { tokens := [], ending := .eof }
  | line, _ :: _, [] => { tokens := [], ending := .fail (syntaxError line "unexpected EOF") }
  | line, stack, .StartElement n :: ts =>
    { tokens := .StartElement n :: (strictTokens line (n :: stack) ts).tokens,
      ending := (strictTokens line (n :: stack) ts).ending }
  | line, [], .EndElement n :: _ =>
    { tokens := [],
      ending := .fail (syntaxError line ("unexpected end element </" ++ n ++ ">")) }
  | line, top :: stack, .EndElement n :: ts =>
    if top = n then
      { tokens := .EndElement n :: (strictTokens line stack ts).tokens,
        ending := (strictTokens line stack ts).ending }
    else
      { tokens := [],
        ending := .fail (syntaxError line ("element <" ++ top ++ "> closed by </" ++ n ++ ">")) }
  | line, stack, .CharData c :: ts =>
    { tokens := .CharData c :: (strictTokens (line + c.toList.count '\n') stack ts).tokens,
      ending := (strictTokens (line + c.toList.count '\n') stack ts).ending }
  | line, stack, .other :: ts =>
    { tokens := .other :: (strictTokens line stack ts).tokens,
      ending := (strictTokens line stack ts).ending }

/-- The Go function `strings.EqualFold`, on ASCII names. -/
def equalFold (a b : String) : Bool :=
  a.toList.map Char.toLower == b.toList.map Char.toLower

/-- The token stream the decoder of `ParseNGUGML` gives for a document. An XML
declaration naming a version other than 1.0, or an encoding other than UTF-8, ends the
stream with an error at the first token; otherwise the declaration is one token and the
text follows under the nesting check. -/
def decode (d : Document) : TokenStream :=
  match d.decl with
  | none => strictTokens 1 [] d.content
  | some (ver, enc) =>
    if ver ≠ "" ∧ ver ≠ "1.0" then
      { tokens := [],
        ending := .fail ("xml: unsupported version \"" ++ ver ++
          "\"; only version 1.0 is supported") }
    else if enc ≠ "" ∧ equalFold enc "utf-8" = false then
      { tokens := [],
        ending := .fail ("xml: encoding \"" ++ enc ++
          "\" declared but Decoder.CharsetReader is nil") }
    else
      { tokens := .other :: (strictTokens 1 [] d.content).tokens,
        ending := (strictTokens 1 [] d.content).ending }

/-! ## float64 values -/

/-- A value of the Go type `float64`: a NaN, an infinity, or the finite number
`m * 2 ^ e`. The two zeros are not told apart. -/
inductive F64 where
  | nan
  | posInf
  | negInf
  | finite (m : Int) (e : Int)
  deriving DecidableEq, Repr

/-- The Go comparison `a < b` on `float64`: false whenever an operand is a NaN. -/
def F64.lt : F64 → F64 → Bool
  | .nan, _ => false
  | _, .nan => false
  | .posInf, _ => false
  | _, .negInf => false
  | .negInf, _ => true
  | _, .posInf => true
  | .finite m1 e1, .finite m2 e2 =>
    decide (m1 * 2 ^ (e1 - min e1 e2).toNat < m2 * 2 ^ (e2 - min e1 e2).toNat)

/-- The Go comparison `a > b` on `float64`. -/
def F64.gt (a b : F64) : Bool := F64.lt b a

/-- The Go comparison `a <= b` on `float64`: false whenever an operand is a NaN. -/
def F64.le : F64 → F64 → Bool
  | .nan, _ => false
  | _, .nan => false
  | .negInf, _ => true
  | _, .posInf => true
  | .posInf, _ => false
  | _, .negInf => false
  | .finite m1 e1, .finite m2 e2 =>
    decide (m1 * 2 ^ (e1 - min e1 e2).toNat ≤ m2 * 2 ^ (e2 - min e1 e2).toNat)

/-- A finite number, neither NaN nor an infinity. -/
def F64.isFinite : F64 → Bool
  | .finite _ _ => true
  | _ => false

/-! ## ngu.go: validateCoords -/

/-- The constant `latMin`. -/
def latMin : F64 := .finite 57 0
/-- The constant `latMax`. -/
def latMax : F64 := .finite 82 0
/-- The constant `lonMin`. -/
def lonMin : F64 := .finite (-2) 0
/-- The constant `lonMax`. -/
def lonMax : F64 := .finite 35 0

/-- The function `validateCoords` of ngu.go. The parameter `parseFloat` is
`strconv.ParseFloat(s, 64)`: `none` when it returns an error, the parsed value otherwise.
An error return of `validateCoords` carries the message of `fmt.Errorf`. -/
def validateCoords (parseFloat : String → Option F64) (latStr lonStr : String) :
    Except String (F64 × F64) :=
  if latStr = "" ∨ lonStr = "" then
    .error "lat and lon are required"
  else
    match parseFloat latStr with
    | none => .error "invalid lat: must be a number"
    | some lat =>
      match parseFloat lonStr with
      | none => .error "invalid lon: must be a number"
      | some lon =>
        if lat.lt latMin || lat.gt latMax || lon.lt lonMin || lon.gt lonMax then
          .error "coordinates out of Norway bounds (lat 57-82, lon -2 to 35)"
        else
          .ok (lat, lon)

/-! ## narvesen.go: parseNarvesenHTML -/

/-- An upstream response body as a reader: the bytes it delivers, then end-of-file or a
read error. -/
structure BodyReader where
  data : List UInt8
  err : Option String
  deriving DecidableEq, Repr

/-- The call `io.ReadAll(io.LimitReader(r, n))`: the limited reader reports end-of-file
once `n` bytes were delivered, so at most `n` bytes are read; below that the reader's own
end-of-file or error ends the read. -/
def readAllLimited (r : BodyReader) (n : Nat) : Except String (List UInt8) :=
  if n ≤ r.data.length then .ok (r.data.take n)
  else
    match r.err with
    | none => .ok r.data
    | some e => .error e

/-- An upstream HTTP response: `resp.StatusCode` and `resp.Body`. -/
structure Response where
  StatusCode : Int
  Body : BodyReader
  deriving DecidableEq, Repr

/-! ## narvesen.go: fetchNarvesenStores -/

/-- The floating-point operations and functions `buildWKTPolygon` uses. -/
structure FloatLib where
  /-- The `float64` sum. -/
  add : F64 → F64 → F64
  /-- The `float64` product. -/
  mul : F64 → F64 → F64
  /-- The `float64` quotient. -/
  div : F64 → F64 → F64
  /-- The conversion `float64(i)`. -/
  ofInt : Int → F64
  /-- The function `math.Cos`. -/
  cos : F64 → F64
  /-- The function `math.Sin`. -/
  sin : F64 → F64
  /-- The verb `%f` of `fmt.Sprintf`. -/
  formatF : F64 → String

/-- The constant `radius`, 0.1 as a `float64`. -/
def radius : F64 := .finite 3602879701896397 (-55)

/-- The constant `vertices`. -/
def vertices : Nat := 8

/-- The constant `2 * math.Pi` as a `float64`. -/
def twoPi : F64 := .finite 884279719003555 (-47)

/-- The body of the loop of `buildWKTPolygon`: the text of vertex `i`. -/
def polygonVertex (fl : FloatLib) (lat lon : F64) (i : Nat) : String :=
  let angle := fl.div (fl.mul twoPi (fl.ofInt i)) (fl.ofInt vertices)
  let pLon := fl.add lon (fl.mul radius (fl.cos angle))
  let pLat := fl.add lat (fl.mul radius (fl.sin angle))
  fl.formatF pLon ++ " " ++ fl.formatF pLat

/-- The slice `coords` of `buildWKTPolygon` when it is joined: the vertices appended by
the loop, then `coords[0]` once more. -/
def polygonCoords (fl : FloatLib) (lat lon : F64) : List String :=
  let coords := (List.range vertices).foldl
    (fun coords i => coords ++ [polygonVertex fl lat lon i]) []
  coords ++ [coords.headD ""]

/-- The function `buildWKTPolygon` of nve.go. -/
def buildWKTPolygon (fl : FloatLib) (lat lon : F64) : String :=
  "POLYGON((" ++ String.intercalate "," (polygonCoords fl lat lon) ++ "))"

/-- What a handler reads of the request: the method and the query values. -/
structure Request where
  Method : String
  lat : String
  lon : String
  deriving DecidableEq, Repr

/-- The body a handler writes: the JSON object of `writeJSONError`, or bytes as they are. -/
inductive Payload where
  | errorJSON (msg : String)
  | raw (body : List UInt8)
  deriving DecidableEq, Repr

/-- The response a handler writes. -/
structure HandlerResponse where
  status : Nat
  contentType : String
  body : Payload
  deriving DecidableEq, Repr

/-- The function `writeJSONError` of ngu.go. -/
def writeJSONError (status : Nat) (msg : String) : HandlerResponse :=
  { status := status, contentType := "application/json", body := .errorJSON msg }

/-- The constant `maxBody` of `NVEHandler`. -/
def nveMaxBody : Nat := 512 * 1024 + 1

/-- The statements of `NVEHandler` from the status check to the size check: either the
error response written, or the body handed on. -/
def nveBody (resp : Response) : Except HandlerResponse (List UInt8) :=
  if resp.StatusCode ≠ 200 then
    .error (writeJSONError 502 ("upstream returned " ++ toString resp.StatusCode))
  else
    match readAllLimited resp.Body nveMaxBody with
    | .error _ => .error (writeJSONError 502 "failed to read upstream response")
    | .ok body =>
      if nveMaxBody ≤ body.length then
        .error (writeJSONError 502 "upstream response too large")
      else .ok body

/-- What `NVEHandler` reads of its surroundings. -/
structure NVEEnv where
  /-- The package variable `nveAPIKey`. -/
  nveAPIKey : String
  /-- The call `strconv.ParseFloat(s, 64)`: `none` when it returns an error. -/
  parseFloat : String → Option F64
  /-- The floating-point library. -/
  floats : FloatLib
  /-- The method `Encode` of `url.Values`, on the values set. -/
  encodeQuery : List (String × String) → String
  /-- The error of `http.NewRequestWithContext` for a URL, if any. -/
  newRequestErr : String → Option String
  /-- The result of `httpClient.Do(req)` for the request to a URL. -/
  doRequest : String → Except String Response
  /-- The function `json.Valid`. -/
  jsonValid : List UInt8 → Bool

/-- The function `NVEHandler` of nve.go. -/
def NVEHandler (env : NVEEnv) (r : Request) : HandlerResponse :=
  if r.Method ≠ "GET" then writeJSONError 405 "method not allowed"
  else if env.nveAPIKey = "" then writeJSONError 503 "NVE API key not configured"
  else
    match validateCoords env.parseFloat r.lat r.lon with
    | .error msg => writeJSONError 400 msg
    | .ok (lat, lon) =>
      let polygon := buildWKTPolygon env.floats lat lon
      let params := [("Active", "1"), ("ParameterName", "1000,1001"), ("Polygon", polygon)]
      let nveURL := "https://hydapi.nve.no/api/v1/Stations?" ++ env.encodeQuery params
      match env.newRequestErr nveURL with
      | some _ => writeJSONError 500 "failed to build upstream request"
      | none =>
        match env.doRequest nveURL with
        | .error _ => writeJSONError 502 "upstream request failed"
        | .ok resp =>
          match nveBody resp with
          | .error w => w
          | .ok body =>
            if !env.jsonValid body then
              writeJSONError 502 "upstream returned invalid JSON"
            else
              { status := 200, contentType := "application/json", body := .raw body }

/-! ## A reference reading of strconv.ParseFloat

Used to evaluate the definitions on concrete inputs. It covers the plain decimal
literals (sign, digits, optional fraction) and the special strings `NaN`, `Inf`,
`Infinity`, rounding to the nearest `float64`, ties to even. -/

/-- The number of binary digits of `n`, computed with `fuel` steps. -/
def bitLen : Nat → Nat → Nat
  | 0, _ => 0
  | fuel + 1, n =>
    if n = 0 then 0
    else if 2 ^ 64 ≤ n then bitLen fuel (n / 2 ^ 64) + 64
    else bitLen fuel (n / 2) + 1

/-- The value of a decimal digit. -/
def digitValue (c : Char) : Option Nat :=
  if 48 ≤ c.toNat ∧ c.toNat ≤ 57 then some (c.toNat - 48) else none

/-- The number written by a run of decimal digits, after the digits read so far. -/
def readDigits : List Char → Nat → Option Nat
  | [], acc => some acc
  | c :: cs, acc =>
    match digitValue c with
    | some d => readDigits cs (10 * acc + d)
    | none => none

/-- The quotient `a / (b * 2 ^ e)` rounded to the nearest integer, ties to even. -/
def roundQuot (a b : Nat) (e : Int) : Nat :=
  let num := a * 2 ^ (-e).toNat
  let den := b * 2 ^ e.toNat
  let q := num / den
  let r := num % den
  if den < 2 * r ∨ (2 * r = den ∧ q % 2 = 1) then q + 1 else q

/-- The `float64` nearest to `a / b`, for `b > 0`, as `m * 2 ^ e` with `m` below
`2 ^ 53`; `none` when it overflows. -/
def nearestFloat (neg : Bool) (a b : Nat) : Option F64 :=
  if a = 0 then some (.finite 0 0) else
  let e0 : Int := (bitLen a a : Int) - (bitLen b b : Int) - 53
  let e1 : Int := max e0 (-1074)
  let e : Int := if (a * 2 ^ (-e1).toNat) / (b * 2 ^ e1.toNat) < 2 ^ 53 then e1 else e1 + 1
  let m := roundQuot a b e
  let m2 : Nat := if m = 2 ^ 53 then 2 ^ 52 else m
  let e2 : Int := if m = 2 ^ 53 then e + 1 else e
  if 971 < e2 then none
  else some (.finite (if neg then -(m2 : Int) else (m2 : Int)) e2)

/-- An unsigned decimal literal: digits, optionally a point and more digits, at least
one digit in all. -/
def parseUnsigned (neg : Bool) (cs : List Char) : Option F64 :=
  let ip := cs.takeWhile (fun c => c != '.')
  match cs.dropWhile (fun c => c != '.') with
  | [] =>
    if ip = [] then none
    else (readDigits ip 0).bind (fun n => nearestFloat neg n 1)
  | _ :: fp =>
    if ip = [] ∧ fp = [] then none
    else (readDigits (ip ++ fp) 0).bind (fun n => nearestFloat neg n (10 ^ fp.length))

/-- The reference `strconv.ParseFloat(s, 64)`. -/
def parseFloatRef (s : String) : Option F64 :=
  let lower := s.toList.map Char.toLower
  if lower = "nan".toList then some .nan
  else if lower = "inf".toList ∨ lower = "+inf".toList ∨ lower = "infinity".toList ∨
      lower = "+infinity".toList then some .posInf
  else if lower = "-inf".toList ∨ lower = "-infinity".toList then some .negInf
  else
    match s.toList with
    | '-' :: cs => parseUnsigned true cs
    | '+' :: cs => parseUnsigned false cs
    | cs => parseUnsigned false cs

/-! ## A reference reading of the regular expressions and of html.UnescapeString

Used to evaluate the definitions on concrete inputs. The three patterns of narvesen.go
are matched by hand; in each of them every repetition is followed by a character it
excludes, so the leftmost match is found without backtracking. -/

/-- The tokens of the document of `TestParseNGUGMLMultipleFeatures` before the first
feature container opens. -/
def multiPre : List Token :=
  [.other, .CharData "\n", .StartElement "msGMLOutput", .CharData "\n\t",
   .StartElement "Test_layer", .CharData "\n\t\t"]

/-- The tokens inside the first feature container of that document. -/
def multiBody : List Token :=
  [.CharData "\n\t\t\t", .StartElement "name", .CharData "First", .EndElement "name",
   .CharData "\n\t\t"]

/-- The tokens of that document after the first feature container closes. -/
def multiRest : List Token :=
  [.CharData "\n\t\t", .StartElement "Test_feature", .CharData "\n\t\t\t",
   .StartElement "name", .CharData "Second", .EndElement "name", .CharData "\n\t\t",
   .EndElement "Test_feature", .CharData "\n\t", .EndElement "Test_layer", .CharData "\n",
   .EndElement "msGMLOutput"]

/-- The document of `TestParseNGUGMLMultipleFeatures`. -/
def multiDocument : Document :=
  { decl := some ("1.0", "UTF-8"),
    content := multiPre.tail ++ .StartElement "Test_feature" ::
      (multiBody ++ .EndElement "Test_feature" :: multiRest) }

/-- The document of `TestParseNGUGMLEmpty`. -/
def emptyDocument : Document :=
  { decl := some ("1.0", "UTF-8"),
    content := [.CharData "\n", .StartElement "msGMLOutput", .CharData "\n",
      .EndElement "msGMLOutput"] }

/-- The well-formed document
`<?xml version="1.0" encoding="ISO-8859-1"?><msGMLOutput></msGMLOutput>`. -/
def latin1Document : Document :=
  { decl := some ("1.0", "ISO-8859-1"),
    content := [.StartElement "msGMLOutput", .EndElement "msGMLOutput"] }

/-- A document whose second feature container lies inside the first one. -/
def nestedDoc : List Token :=
  [.StartElement "Test_layer", .StartElement "Outer_feature", .StartElement "Inner_feature",
   .StartElement "name", .CharData "Second", .EndElement "name", .EndElement "Inner_feature",
   .StartElement "name", .CharData "First", .EndElement "name", .EndElement "Outer_feature",
   .EndElement "Test_layer"]

/-- A feature container whose field `name` occurs twice, the second time with blank text. -/
def blankRepeatDoc : List Token :=
  [.StartElement "Test_feature", .StartElement "name", .CharData "First", .EndElement "name",
   .StartElement "name", .CharData "  ", .EndElement "name", .EndElement "Test_feature"]

/-- The text `<Test_layer><Test_feature><name>First</name>`, which stops inside an open
feature container after a field was read. -/
def unclosedDocument : Document :=
  { decl := none,
    content := [.StartElement "Test_layer", .StartElement "Test_feature",
      .StartElement "name", .CharData "First", .EndElement "name"] }

/-! ## Theorems: ParseNGUGML -/

theorem Fields.get_set_self (m : Fields) (k v : String) : (m.set k v).get k = some v := by
  induction m with
  | nil => simp [Fields.set, Fields.get]
  | cons p rest ih =>
    obtain ⟨k', v'⟩ := p
    by_cases h : k' = k
    · simp [Fields.set, Fields.get, h]
    · simp [Fields.set, Fields.get, h, ih]

theorem Fields.get_set_other (m : Fields) (k k0 v : String) (h0 : k ≠ k0) :
    (m.set k v).get k0 = m.get k0 := by
  induction m with
  | nil => simp [Fields.set, Fields.get, h0]
  | cons p rest ih =>
    obtain ⟨k', v'⟩ := p
    by_cases h : k' = k
    · subst h
      simp [Fields.set, Fields.get, h0]
    · by_cases h1 : k' = k0
      · subst h1
        simp [Fields.set, Fields.get, h]
      · simp [Fields.set, Fields.get, h, h1, ih]

theorem Fields.eq_nil_of_get (m : Fields) (h : ∀ k, m.get k = none) : m = [] := by
  cases m with
  | nil => rfl
  | cons p rest =>
    obtain ⟨k', v'⟩ := p
    have := h k'
    simp [Fields.get] at this

theorem parseStep_of_not_end (s : ParserState) (t : Token) (h : t.isFeatureEnd = false) :
    parseStep s t = .next (nextState s t) := by
  cases t with
  | StartElement n =>
    by_cases hn : hasSuffix n "_feature" = true <;> by_cases hf : s.inFeature = true <;>
      simp [nextState, parseStep, hn, hf]
  | CharData c =>
    by_cases hc : (s.inFeature && s.currentTag != "") = true <;>
      by_cases ht : (trimSpace c != "") = true <;>
      simp only [nextState, parseStep, hc, ht] <;> simp
  | EndElement n =>
    simp only [Token.isFeatureEnd] at h
    by_cases hf : s.inFeature = true <;> simp [nextState, parseStep, h, hf]
  | other => rfl

theorem parseLoop_append (s : ParserState) (body rest : List Token) (e : Ending)
    (h : ∀ t ∈ body, t.isFeatureEnd = false) :
    parseLoop s (body ++ rest) e = parseLoop (advance s body) rest e := by
  induction body generalizing s with
  | nil => rfl
  | cons t ts ih =>
    have ht := h t (List.mem_cons_self _ _)
    have hts : ∀ u ∈ ts, u.isFeatureEnd = false := fun u hu => h u (List.mem_cons_of_mem _ hu)
    simp only [List.cons_append, parseLoop, parseStep_of_not_end s t ht]
    exact ih (nextState s t) hts

theorem advance_cons (s : ParserState) (t : Token) (ts : List Token) :
    advance s (t :: ts) = advance (nextState s t) ts := rfl

theorem advance_append (s : ParserState) (xs ys : List Token) :
    advance s (xs ++ ys) = advance (advance s xs) ys := by
  simp [advance, List.foldl_append]

theorem nextState_outside (s : ParserState) (t : Token) (hs : s.inFeature = false)
    (ht : t.isFeatureStart = false) : nextState s t = s := by
  cases t with
  | StartElement n =>
    simp only [Token.isFeatureStart] at ht
    simp [nextState, parseStep, ht, hs]
  | CharData c => simp [nextState, parseStep, hs]
  | EndElement n =>
    by_cases hn : hasSuffix n "_feature" = true <;> simp [nextState, parseStep, hn, hs]
  | other => rfl

theorem advance_outside (s : ParserState) (body : List Token) (hs : s.inFeature = false)
    (h : ∀ t ∈ body, t.isFeatureStart = false) : advance s body = s := by
  induction body with
  | nil => rfl
  | cons t ts ih =>
    rw [advance_cons, nextState_outside s t hs (h t (List.mem_cons_self _ _))]
    exact ih (fun u hu => h u (List.mem_cons_of_mem _ hu))

theorem nextState_inFeature (s : ParserState) (t : Token) (hs : s.inFeature = true) :
    (nextState s t).inFeature = true := by
  cases t with
  | StartElement n =>
    by_cases hn : hasSuffix n "_feature" = true <;> simp [nextState, parseStep, hn, hs]
  | CharData c =>
    by_cases hc : (s.inFeature && s.currentTag != "") = true <;>
      by_cases ht : (trimSpace c != "") = true <;>
      simp only [nextState, parseStep, hc, ht] <;> simp [hs]
  | EndElement n =>
    by_cases hn : hasSuffix n "_feature" = true <;> simp [nextState, parseStep, hn, hs]
  | other => exact hs

theorem advance_inFeature (s : ParserState) (body : List Token) (hs : s.inFeature = true) :
    (advance s body).inFeature = true := by
  induction body generalizing s with
  | nil => exact hs
  | cons t ts ih => exact ih (nextState s t) (nextState_inFeature s t hs)

/-- One token changes the tag being read only to the empty tag or to the name of the
element it opens. -/
theorem nextState_currentTag (s : ParserState) (t : Token) :
    (nextState s t).currentTag = s.currentTag ∨ (nextState s t).currentTag = "" ∨
      t = .StartElement (nextState s t).currentTag := by
  cases t with
  | StartElement n =>
    by_cases hn : hasSuffix n "_feature" = true <;> by_cases hf : s.inFeature = true <;>
      simp [nextState, parseStep, hn, hf]
  | CharData c =>
    by_cases hc : (s.inFeature && s.currentTag != "") = true <;>
      by_cases ht : (trimSpace c != "") = true <;>
      simp only [nextState, parseStep, hc, ht] <;> simp
  | EndElement n =>
    by_cases hn : hasSuffix n "_feature" = true <;> by_cases hf : s.inFeature = true <;>
      simp [nextState, parseStep, hn, hf]
  | other => exact Or.inl rfl

/-- One token writes at most the entry of the tag being read, with the trimmed,
non-empty text of a character-data token. -/
theorem nextState_get (s : ParserState) (t : Token) (k v : String)
    (h : (nextState s t).fields.get k = some v) :
    s.fields.get k = some v ∨
      (∃ c, t = .CharData c ∧ v = trimSpace c ∧ v ≠ "" ∧ k = s.currentTag ∧ k ≠ "") := by
  cases t with
  | StartElement n =>
    left
    by_cases hn : hasSuffix n "_feature" = true <;> by_cases hf : s.inFeature = true <;>
      simpa [nextState, parseStep, hn, hf] using h
  | CharData c =>
    by_cases hc : (s.inFeature && s.currentTag != "") = true
    · by_cases ht : (trimSpace c != "") = true
      · simp only [nextState, parseStep, hc, ht, if_true] at h
        by_cases hk : s.currentTag = k
        · right
          subst hk
          rw [Fields.get_set_self] at h
          simp only [Bool.and_eq_true, bne_iff_ne, ne_eq] at hc ht
          exact ⟨c, rfl, (Option.some.inj h).symm, (Option.some.inj h) ▸ ht, rfl, hc.2⟩
        · left
          rwa [Fields.get_set_other _ _ _ _ hk] at h
      · left
        simpa [nextState, parseStep, hc, ht] using h
    · left
      simpa [nextState, parseStep, hc] using h
  | EndElement n =>
    left
    by_cases hn : hasSuffix n "_feature" = true <;> by_cases hf : s.inFeature = true <;>
      simpa [nextState, parseStep, hn, hf] using h
  | other => exact Or.inl h

/-- Every entry present after a run of tokens was present before it, or is the trimmed
non-empty text of a character-data token of the run, stored under the tag that was being
read when the run began or under the name of an element opened in the run. -/
theorem advance_get (s : ParserState) (body : List Token) (k v : String)
    (h : (advance s body).fields.get k = some v) :
    s.fields.get k = some v ∨
      (∃ c, Token.CharData c ∈ body ∧ v = trimSpace c ∧ v ≠ "" ∧ k ≠ "" ∧
        (k = s.currentTag ∨ Token.StartElement k ∈ body)) := by
  induction body generalizing s with
  | nil => exact Or.inl h
  | cons t ts ih =>
    rw [advance_cons] at h
    rcases ih (nextState s t) h with h1 | ⟨c, hc, hv, hv0, hk0, hk⟩
    · rcases nextState_get s t k v h1 with h2 | ⟨c, ht, hv, hv0, hk, hk0⟩
      · exact Or.inl h2
      · exact Or.inr ⟨c, ht ▸ List.mem_cons_self _ _, hv, hv0, hk0, Or.inl hk⟩
    · right
      refine ⟨c, List.mem_cons_of_mem _ hc, hv, hv0, hk0, ?_⟩
      rcases hk with hk | hk
      · rcases nextState_currentTag s t with h3 | h3 | h3
        · exact Or.inl (hk.trans h3)
        · exact absurd (hk.trans h3) hk0
        · right
          rw [hk, ← h3]
          exact List.mem_cons_self _ _
      · exact Or.inr (List.mem_cons_of_mem _ hk)

theorem nextState_get_unchanged (s : ParserState) (t : Token) (k : String)
    (hs : s.currentTag ≠ k) : (nextState s t).fields.get k = s.fields.get k := by
  cases t with
  | StartElement n =>
    by_cases hn : hasSuffix n "_feature" = true <;> by_cases hf : s.inFeature = true <;>
      simp [nextState, parseStep, hn, hf]
  | CharData c =>
    by_cases hc : (s.inFeature && s.currentTag != "") = true
    · by_cases ht : (trimSpace c != "") = true
      · simp only [nextState, parseStep, hc, ht, if_true]
        exact Fields.get_set_other _ _ _ _ hs
      · simp [nextState, parseStep, hc, ht]
    · simp [nextState, parseStep, hc]
  | EndElement n =>
    by_cases hn : hasSuffix n "_feature" = true <;> by_cases hf : s.inFeature = true <;>
      simp [nextState, parseStep, hn, hf]
  | other => rfl

/-- A run of tokens that neither is reading the tag `k` when it begins nor opens an
element named `k` leaves the entry of `k` as it was. -/
theorem advance_get_unchanged (s : ParserState) (body : List Token) (k : String)
    (hk0 : k ≠ "") (hs : s.currentTag ≠ k) (hb : Token.StartElement k ∉ body) :
    (advance s body).fields.get k = s.fields.get k := by
  induction body generalizing s with
  | nil => rfl
  | cons t ts ih =>
    rw [advance_cons]
    have hts : Token.StartElement k ∉ ts := fun hmem => hb (List.mem_cons_of_mem _ hmem)
    have hne : (nextState s t).currentTag ≠ k := by
      rcases nextState_currentTag s t with h3 | h3 | h3
      · rw [h3]; exact hs
      · rw [h3]; exact fun h => hk0 h.symm
      · intro h
        apply hb
        rw [← h, ← h3]
        exact List.mem_cons_self _ _
    rw [ih (nextState s t) hne hts]
    exact nextState_get_unchanged s t k hs

/-- Reading one simple field element `<k>c</k>` inside a feature container, with
non-blank text, stores the trimmed text under `k` and leaves no tag being read. -/
theorem advance_field (s : ParserState) (k c : String) (hs : s.inFeature = true)
    (hk : hasSuffix k "_feature" = false) (hk0 : k ≠ "") (hc : trimSpace c ≠ "") :
    advance s [.StartElement k, .CharData c, .EndElement k] =
      { fields := s.fields.set k (trimSpace c), inFeature := true, currentTag := "" } := by
  simp [advance, nextState, parseStep, hs, hk, hk0, hc]

theorem isFeatureEnd_of_tag (t : Token) (h : t.isFeatureTag = false) :
    t.isFeatureEnd = false := by
  cases t <;> simp_all [Token.isFeatureTag, Token.isFeatureEnd]

theorem isFeatureStart_of_tag (t : Token) (h : t.isFeatureTag = false) :
    t.isFeatureStart = false := by
  cases t <;> simp_all [Token.isFeatureTag, Token.isFeatureStart]

theorem parseLoop_featureEnd (s : ParserState) (g : String) (rest : List Token) (e : Ending)
    (hg : hasSuffix g "_feature" = true) :
    parseLoop s (.EndElement g :: rest) e = .ok s.fields := by
  simp [parseLoop, parseStep, hg]

theorem nextState_featureStart (s : ParserState) (f : String)
    (hf : hasSuffix f "_feature" = true) :
    nextState s (.StartElement f) = { s with inFeature := true } := by
  simp [nextState, parseStep, hf]

theorem firstSome_none_right (x : Option String) : firstSome x none = x := by
  cases x <;> rfl

theorem firstSome_assoc (x y z : Option String) :
    firstSome (firstSome x y) z = firstSome x (firstSome y z) := by
  cases x <;> rfl

theorem nextState_charData_store (s : ParserState) (c : String)
    (hs : s.inFeature = true) (ht : s.currentTag ≠ "") (hc : trimSpace c ≠ "") :
    nextState s (.CharData c) = { s with fields := s.fields.set s.currentTag (trimSpace c) } := by
  simp [nextState, parseStep, hs, ht, hc]

theorem nextState_charData_skip (s : ParserState) (c : String)
    (h : s.currentTag = "" ∨ trimSpace c = "") : nextState s (.CharData c) = s := by
  rcases h with h | h
  · simp [nextState, parseStep, h]
  · by_cases hc : (s.inFeature && s.currentTag != "") = true <;>
      simp [nextState, parseStep, hc, h]

theorem nextState_start (s : ParserState) (n : String) (hs : s.inFeature = true)
    (hn : hasSuffix n "_feature" = false) :
    nextState s (.StartElement n) = { s with currentTag := n } := by
  simp [nextState, parseStep, hs, hn]

theorem nextState_end (s : ParserState) (n : String) (hs : s.inFeature = true)
    (hn : hasSuffix n "_feature" = false) :
    nextState s (.EndElement n) = { s with currentTag := "" } := by
  simp [nextState, parseStep, hs, hn]

/-- Inside a feature container, the entry of `k` after a run of tokens free of feature
tags is the text the specification gives `k` on that run; failing that, the text stored
by the character data that opens the run when `k` was being read; failing that, the
entry of `k` before the run. -/
theorem advance_fieldText (s : ParserState) (body : List Token) (k : String)
    (hk0 : k ≠ "") (hs : s.inFeature = true) (hb : ∀ t ∈ body, t.isFeatureTag = false) :
    (advance s body).fields.get k =
      firstSome (fieldText k body)
        (firstSome (if s.currentTag = k then leadingText body else none) (s.fields.get k)) := by
  induction body generalizing s with
  | nil => simp [advance, fieldText, leadingText, firstSome]
  | cons t ts ih =>
    have hts : ∀ u ∈ ts, u.isFeatureTag = false := fun u hu => hb u (List.mem_cons_of_mem _ hu)
    have ht := hb t (List.mem_cons_self _ _)
    rw [advance_cons, ih (nextState s t) (nextState_inFeature s t hs) hts]
    cases t with
    | StartElement n =>
      simp only [Token.isFeatureTag] at ht
      rw [nextState_start s n hs ht]
      by_cases hnk : n = k
      · subst hnk
        simp [fieldText, leadingText, firstSome_assoc]
        rfl
      · have hne : Token.StartElement n ≠ Token.StartElement k := by
          intro h; exact hnk (Token.StartElement.inj h)
        simp [fieldText, leadingText, hnk, hne, firstSome]
    | EndElement n =>
      simp only [Token.isFeatureTag] at ht
      rw [nextState_end s n hs ht]
      have hk1 : ¬ ("" = k) := fun h => hk0 h.symm
      simp [fieldText, leadingText, hk1, firstSome]
    | other => simp [nextState, parseStep, fieldText, leadingText]
    | CharData c =>
      have hf : fieldText k (Token.CharData c :: ts) = fieldText k ts := by
        simp [fieldText]
      rw [hf]
      by_cases hstore : s.currentTag ≠ "" ∧ trimSpace c ≠ ""
      · rw [nextState_charData_store s c hs hstore.1 hstore.2]
        by_cases hkt : s.currentTag = k
        · have hst : storedText c = some (trimSpace c) := by
            simp [storedText, hstore.2]
          simp only [hkt, if_true, leadingText, hst]
          rw [← hkt, Fields.get_set_self]
          cases fieldText s.currentTag ts <;> cases leadingText ts <;> simp [firstSome]
        · simp only [hkt, if_false]
          rw [Fields.get_set_other _ _ _ _ hkt]
      · have hskip : s.currentTag = "" ∨ trimSpace c = "" := by
          by_cases h1 : s.currentTag = ""
          · exact Or.inl h1
          · right
            by_contra h2
            exact hstore ⟨h1, h2⟩
        rw [nextState_charData_skip s c hskip]
        by_cases hkt : s.currentTag = k
        · have hblank : trimSpace c = "" := by
            rcases hskip with h | h
            · exact absurd (hkt ▸ h) hk0
            · exact h
          have hst : storedText c = none := by simp [storedText, hblank]
          simp only [hkt, if_true, leadingText, hst, firstSome_none_right]
        · simp only [hkt, if_false]

/-- The parser's result on a stream in which a closing feature tag follows `front`,
itself free of closing feature tags. -/
theorem ParseNGUGML_until_close (front rest : List Token) (g : String) (e : Ending)
    (hfront : ∀ t ∈ front, t.isFeatureEnd = false) (hg : hasSuffix g "_feature" = true) :
    ParseNGUGML ⟨front ++ .EndElement g :: rest, e⟩ =
      .ok (advance ParserState.init front).fields := by
  rw [ParseNGUGML]
  show parseLoop ParserState.init (front ++ .EndElement g :: rest) e = _
  rw [parseLoop_append _ _ _ _ hfront, parseLoop_featureEnd _ _ _ _ hg]

/-- The parser's result on a stream free of closing feature tags. -/
theorem ParseNGUGML_no_close (r : TokenStream) (h : ∀ t ∈ r.tokens, t.isFeatureEnd = false) :
    ParseNGUGML r =
      match r.ending with
      | .eof => .ok (advance ParserState.init r.tokens).fields
      | .fail msg => .error ("parsing GML: " ++ msg) := by
  have h1 := parseLoop_append ParserState.init r.tokens [] r.ending h
  rw [List.append_nil] at h1
  rw [ParseNGUGML, h1]
  cases r.ending <;> rfl

/-- A well-nested token sequence without a closing feature tag has no opening feature
tag either, and no feature container is open where it begins. -/
theorem wellNested_no_start (stack : List String) (tokens : List Token)
    (hw : wellNested stack tokens = true) (hno : ∀ t ∈ tokens, t.isFeatureEnd = false) :
    (∀ n ∈ stack, hasSuffix n "_feature" = false) ∧
    (∀ t ∈ tokens, t.isFeatureStart = false) := by
  induction tokens generalizing stack with
  | nil =>
    simp only [wellNested, List.isEmpty_iff] at hw
    subst hw
    exact ⟨fun n hn => absurd hn (List.not_mem_nil _), fun t ht => absurd ht (List.not_mem_nil _)⟩
  | cons t ts ih =>
    have hts : ∀ u ∈ ts, u.isFeatureEnd = false := fun u hu => hno u (List.mem_cons_of_mem _ hu)
    have ht := hno t (List.mem_cons_self _ _)
    cases t with
    | StartElement n =>
      simp only [wellNested] at hw
      obtain ⟨hstack, hstart⟩ := ih (n :: stack) hw hts
      refine ⟨fun m hm => hstack m (List.mem_cons_of_mem _ hm), ?_⟩
      intro u hu
      rcases List.mem_cons.1 hu with h | h
      · rw [h]
        exact hstack n (List.mem_cons_self _ _)
      · exact hstart u h
    | EndElement n =>
      cases stack with
      | nil => simp [wellNested] at hw
      | cons top st =>
        simp only [wellNested, Bool.and_eq_true, beq_iff_eq] at hw
        obtain ⟨htop, hw2⟩ := hw
        obtain ⟨hstack, hstart⟩ := ih st hw2 hts
        simp only [Token.isFeatureEnd] at ht
        refine ⟨?_, ?_⟩
        · intro m hm
          rcases List.mem_cons.1 hm with h | h
          · rw [h, htop]; exact ht
          · exact hstack m h
        · intro u hu
          rcases List.mem_cons.1 hu with h | h
          · rw [h]; rfl
          · exact hstart u h
    | CharData c =>
      simp only [wellNested] at hw
      obtain ⟨hstack, hstart⟩ := ih stack hw hts
      refine ⟨hstack, ?_⟩
      intro u hu
      rcases List.mem_cons.1 hu with h | h
      · rw [h]; rfl
      · exact hstart u h
    | other =>
      simp only [wellNested] at hw
      obtain ⟨hstack, hstart⟩ := ih stack hw hts
      refine ⟨hstack, ?_⟩
      intro u hu
      rcases List.mem_cons.1 hu with h | h
      · rw [h]; rfl
      · exact hstart u h

/-- The nesting check of the decoder: a stream it ends with `io.EOF` is well nested. -/
theorem strictTokens_eof (line : Nat) (stack : List String) (content : List Token)
    (h : (strictTokens line stack content).ending = .eof) :
    wellNested stack (strictTokens line stack content).tokens = true := by
  induction content generalizing line stack with
  | nil =>
    cases stack with
    | nil => rfl
    | cons top st => simp [strictTokens] at h
  | cons t ts ih =>
    cases t with
    | StartElement n =>
      simp only [strictTokens] at h ⊢
      simp only [wellNested]
      exact ih line (n :: stack) h
    | EndElement n =>
      cases stack with
      | nil => simp [strictTokens] at h
      | cons top st =>
        by_cases htop : top = n
        · simp only [strictTokens, htop, if_true] at h ⊢
          simp only [wellNested, beq_self_eq_true, Bool.true_and]
          exact ih line st h
        · simp [strictTokens, htop] at h
    | CharData c =>
      simp only [strictTokens] at h ⊢
      simp only [wellNested]
      exact ih _ stack h
    | other =>
      simp only [strictTokens] at h ⊢
      simp only [wellNested]
      exact ih line stack h

/-- The decoder of `ParseNGUGML` is strict: when the stream of a document ends with
`io.EOF`, every element opened in it was closed. -/
theorem decode_strict (d : Document) (h : (decode d).ending = .eof) :
    wellNested [] (decode d).tokens = true := by
  unfold decode at h ⊢
  cases hd : d.decl with
  | none =>
    rw [hd] at h
    exact strictTokens_eof 1 [] d.content h
  | some p =>
    obtain ⟨ver, enc⟩ := p
    rw [hd] at h
    simp only at h ⊢
    split at h
    · simp at h
    · split at h
      · simp at h
      · rename_i h1 h2
        simp only [h1, h2, if_false]
        simp only [wellNested]
        exact strictTokens_eof 1 [] d.content h

/-- Reading one field element `<k>c</k>` inside a feature container puts the text
stored by `c` under `k`, keeps the entry of `k` when `c` is blank, and leaves no tag
being read. -/
theorem advance_field_get (s : ParserState) (k c : String) (hs : s.inFeature = true)
    (hk : hasSuffix k "_feature" = false) (hk0 : k ≠ "") :
    (advance s [.StartElement k, .CharData c, .EndElement k]).inFeature = true ∧
    (advance s [.StartElement k, .CharData c, .EndElement k]).currentTag = "" ∧
    (advance s [.StartElement k, .CharData c, .EndElement k]).fields.get k
      = firstSome (storedText c) (s.fields.get k) := by
  by_cases hc : trimSpace c = ""
  · simp [advance, nextState, parseStep, hs, hk, hk0, hc, storedText, firstSome]
  · rw [advance_field s k c hs hk hk0 hc]
    simp [storedText, hc, firstSome, Fields.get_set_self]

/-- C1 (as amended): when the first feature container closes before another one opens,
the parser returns no error and the mapping of the first feature container alone: under
every name it holds the text the container gives that name, so every entry is the
trimmed text of a character-data token of the container stored under the name of an
element opened in it, a field element `<k>c</k>` with non-blank text after which `k` is
not opened again puts the trimmed `c` under `k`, and the result is the same whatever
follows the closing tag. -/
theorem ParseNGUGML_first_feature (pre body rest : List Token) (f g : String) (e : Ending)
    (hpre : ∀ t ∈ pre, t.isFeatureTag = false)
    (hbody : ∀ t ∈ body, t.isFeatureTag = false)
    (hf : hasSuffix f "_feature" = true) (hg : hasSuffix g "_feature" = true) :
    ∃ fields,
      ParseNGUGML ⟨pre ++ .StartElement f :: (body ++ .EndElement g :: rest), e⟩ = .ok fields ∧
      (∀ k, k ≠ "" → fields.get k = fieldText k body) ∧
      fields.get "" = none ∧
      (∀ k v, fields.get k = some v →
        ∃ c, Token.CharData c ∈ body ∧ Token.StartElement k ∈ body ∧ v = trimSpace c) ∧
      (∀ b1 b3 k c, body = b1 ++ [.StartElement k, .CharData c, .EndElement k] ++ b3 →
        k ≠ "" → trimSpace c ≠ "" → Token.StartElement k ∉ b3 →
        fields.get k = some (trimSpace c)) ∧
      (∀ rest2 e2,
        ParseNGUGML ⟨pre ++ .StartElement f :: (body ++ .EndElement g :: rest2), e2⟩
          = .ok fields) := by
  have hfront : ∀ t ∈ pre ++ .StartElement f :: body, t.isFeatureEnd = false := by
    intro t ht
    rcases List.mem_append.1 ht with h1 | h1
    · exact isFeatureEnd_of_tag t (hpre t h1)
    · rcases List.mem_cons.1 h1 with h2 | h2
      · rw [h2]; rfl
      · exact isFeatureEnd_of_tag t (hbody t h2)
  have hshape : ∀ r : List Token, pre ++ .StartElement f :: (body ++ .EndElement g :: r)
      = (pre ++ .StartElement f :: body) ++ .EndElement g :: r := by
    intro r; simp
  have hstate : advance ParserState.init (pre ++ .StartElement f :: body)
      = advance { fields := [], inFeature := true, currentTag := "" } body := by
    rw [advance_append, advance_outside ParserState.init pre rfl
      (fun t ht => isFeatureStart_of_tag t (hpre t ht)), advance_cons,
      nextState_featureStart _ _ hf]
    rfl
  have hget : ∀ k v,
      (advance { fields := [], inFeature := true, currentTag := "" } body).fields.get k = some v →
      ∃ c, Token.CharData c ∈ body ∧ Token.StartElement k ∈ body ∧ v = trimSpace c ∧ k ≠ "" := by
    intro k v hkv
    rcases advance_get _ body k v hkv with h1 | ⟨c, hc, hv, _, hk0, hk⟩
    · simp [Fields.get] at h1
    · rcases hk with hk | hk
      · exact absurd hk hk0
      · exact ⟨c, hc, hk, hv, hk0⟩
  refine ⟨(advance ParserState.init (pre ++ .StartElement f :: body)).fields, ?_, ?_, ?_, ?_,
    ?_, ?_⟩
  · rw [hshape, ParseNGUGML_until_close _ _ _ _ hfront hg]
  · intro k hk0
    rw [hstate, advance_fieldText _ body k hk0 rfl hbody]
    have hne : ¬ ("" = k) := fun h => hk0 h.symm
    simp [hne, Fields.get, firstSome_none_right]
  · rw [hstate]
    cases hget0 : (advance { fields := [], inFeature := true, currentTag := "" }
        body).fields.get "" with
    | none => rfl
    | some v =>
      obtain ⟨_, _, _, _, h0⟩ := hget "" v hget0
      exact absurd rfl h0
  · intro k v hkv
    rw [hstate] at hkv
    obtain ⟨c, hc, hk, hv, _⟩ := hget k v hkv
    exact ⟨c, hc, hk, hv⟩
  · intro b1 b3 k c hsplit hk0 hc hlast
    have hkfeat : hasSuffix k "_feature" = false := by
      have hmem : Token.StartElement k ∈ body := by rw [hsplit]; simp
      exact hbody _ hmem
    rw [hstate, hsplit, advance_append, advance_append]
    have hin : (advance { fields := [], inFeature := true, currentTag := "" } b1).inFeature
        = true := advance_inFeature _ _ rfl
    rw [advance_field _ k c hin hkfeat hk0 hc,
      advance_get_unchanged _ b3 k hk0 (fun h => hk0 h.symm) hlast]
    exact Fields.get_set_self _ _ _
  · intro rest2 e2
    rw [hshape, ParseNGUGML_until_close _ _ _ _ hfront hg]

theorem ParseNGUGML_first_feature_witness :
    (decode multiDocument).ending = .eof ∧
    (decode multiDocument).tokens = multiPre ++ .StartElement "Test_feature" ::
      (multiBody ++ .EndElement "Test_feature" :: multiRest) ∧
    ParseNGUGML (decode multiDocument) = .ok [("name", "First")] ∧
    (∀ t ∈ multiPre, t.isFeatureTag = false) ∧ (∀ t ∈ multiBody, t.isFeatureTag = false) ∧
    hasSuffix "Test_feature" "_feature" = true ∧
    fieldText "name" multiBody = some "First" ∧
    ∃ fields,
      ParseNGUGML ⟨multiPre ++ .StartElement "Test_feature" ::
        (multiBody ++ .EndElement "Test_feature" :: multiRest), .eof⟩ = .ok fields ∧
      (∀ k, k ≠ "" → fields.get k = fieldText k multiBody) ∧
      fields.get "" = none ∧
      (∀ k v, fields.get k = some v →
        ∃ c, Token.CharData c ∈ multiBody ∧ Token.StartElement k ∈ multiBody ∧
          v = trimSpace c) ∧
      (∀ b1 b3 k c, multiBody = b1 ++ [.StartElement k, .CharData c, .EndElement k] ++ b3 →
        k ≠ "" → trimSpace c ≠ "" → Token.StartElement k ∉ b3 →
        fields.get k = some (trimSpace c)) ∧
      (∀ rest2 e2,
        ParseNGUGML ⟨multiPre ++ .StartElement "Test_feature" ::
          (multiBody ++ .EndElement "Test_feature" :: rest2), e2⟩ = .ok fields) :=
  ⟨by decide, by decide, by decide, by decide, by decide, by decide, by decide,
    ParseNGUGML_first_feature multiPre multiBody multiRest "Test_feature" "Test_feature" .eof
      (by decide) (by decide) (by decide) (by decide)⟩

/-- C1 (counterexample): in a well-nested document with two feature containers, the
second inside the first, the parser returns at the inner closing tag: the mapping holds
"Second", the text of the child of the second container, and not "First". -/
theorem ParseNGUGML_nested_counterexample :
    wellNested [] nestedDoc = true ∧
    (nestedDoc.filter Token.isFeatureStart).length = 2 ∧
    ParseNGUGML ⟨nestedDoc, .eof⟩ = .ok [("name", "Second")] := by
  decide

/-- C7 (as amended): in a feature container whose field element `k` occurs twice, each
occurrence holding one character-data token, the mapping returned holds under `k` the
trimmed text of the second occurrence when that text is not blank, and otherwise keeps
the trimmed text of the first occurrence (no entry when both are blank). -/
theorem ParseNGUGML_repeated_field (pre b1 b2 b3 rest : List Token)
    (f g k t1 t2 : String) (e : Ending)
    (hpre : ∀ t ∈ pre, t.isFeatureTag = false) (h1 : ∀ t ∈ b1, t.isFeatureEnd = false)
    (h2 : ∀ t ∈ b2, t.isFeatureEnd = false) (h3 : ∀ t ∈ b3, t.isFeatureEnd = false)
    (hf : hasSuffix f "_feature" = true) (hg : hasSuffix g "_feature" = true)
    (hk : hasSuffix k "_feature" = false) (hk0 : k ≠ "")
    (hk1 : Token.StartElement k ∉ b1) (hk2 : Token.StartElement k ∉ b2)
    (hk3 : Token.StartElement k ∉ b3) :
    ∃ fields,
      ParseNGUGML ⟨pre ++ .StartElement f :: (b1 ++ [.StartElement k, .CharData t1,
        .EndElement k] ++ b2 ++ [.StartElement k, .CharData t2, .EndElement k] ++ b3
        ++ .EndElement g :: rest), e⟩ = .ok fields ∧
      fields.get k = firstSome (storedText t2) (storedText t1) ∧
      (trimSpace t2 ≠ "" → fields.get k = some (trimSpace t2)) ∧
      (trimSpace t2 = "" → trimSpace t1 ≠ "" → fields.get k = some (trimSpace t1)) := by
  have hkend : (Token.EndElement k).isFeatureEnd = false := by
    simp [Token.isFeatureEnd, hk]
  let field1 : List Token := [.StartElement k, .CharData t1, .EndElement k]
  let field2 : List Token := [.StartElement k, .CharData t2, .EndElement k]
  have hfield : ∀ c : String, ∀ t ∈ [Token.StartElement k, .CharData c, .EndElement k],
      t.isFeatureEnd = false := by
    intro c t ht
    simp only [List.mem_cons, List.mem_singleton, List.not_mem_nil, or_false] at ht
    rcases ht with h | h | h
    · rw [h]; rfl
    · rw [h]; rfl
    · rw [h]; exact hkend
  have hfront : ∀ t ∈ pre ++ .StartElement f :: (b1 ++ field1 ++ b2 ++ field2 ++ b3),
      t.isFeatureEnd = false := by
    intro t ht
    simp only [List.mem_append, List.mem_cons] at ht
    rcases ht with h | h | ((((h | h) | h) | h) | h)
    · exact isFeatureEnd_of_tag t (hpre t h)
    · rw [h]; rfl
    · exact h1 t h
    · exact hfield t1 t (by simpa [field1] using h)
    · exact h2 t h
    · exact hfield t2 t (by simpa [field2] using h)
    · exact h3 t h
  have hshape : pre ++ .StartElement f :: (b1 ++ [.StartElement k, .CharData t1,
        .EndElement k] ++ b2 ++ [.StartElement k, .CharData t2, .EndElement k] ++ b3
        ++ .EndElement g :: rest)
      = (pre ++ .StartElement f :: (b1 ++ field1 ++ b2 ++ field2 ++ b3))
        ++ .EndElement g :: rest := by
    simp [field1, field2]
  have hkne : ("" : String) ≠ k := fun h => hk0 h.symm
  -- the locals where the feature container opens, then after each part of its body
  let s0 : ParserState := { fields := [], inFeature := true, currentTag := "" }
  have hstate : advance ParserState.init (pre ++ .StartElement f ::
      (b1 ++ field1 ++ b2 ++ field2 ++ b3))
      = advance (advance (advance (advance (advance s0 b1) field1) b2) field2) b3 := by
    rw [advance_append, advance_outside ParserState.init pre rfl
      (fun t ht => isFeatureStart_of_tag t (hpre t ht)), advance_cons,
      nextState_featureStart _ _ hf, advance_append, advance_append, advance_append,
      advance_append]
    rfl
  have hb1 : (advance s0 b1).fields.get k = none :=
    advance_get_unchanged s0 b1 k hk0 hkne hk1
  have hin1 : (advance s0 b1).inFeature = true := advance_inFeature _ _ rfl
  obtain ⟨hin2, htag2, hget2⟩ := advance_field_get (advance s0 b1) k t1 hin1 hk hk0
  have hget3 : (advance (advance (advance s0 b1) field1) b2).fields.get k
      = (advance (advance s0 b1) field1).fields.get k :=
    advance_get_unchanged _ b2 k hk0 (by rw [htag2]; exact hkne) hk2
  have hin3 : (advance (advance (advance s0 b1) field1) b2).inFeature = true :=
    advance_inFeature _ _ hin2
  obtain ⟨_, htag4, hget4⟩ :=
    advance_field_get (advance (advance (advance s0 b1) field1) b2) k t2 hin3 hk hk0
  have hget5 : (advance (advance (advance (advance (advance s0 b1) field1) b2) field2)
      b3).fields.get k
      = (advance (advance (advance (advance s0 b1) field1) b2) field2).fields.get k :=
    advance_get_unchanged _ b3 k hk0 (by rw [htag4]; exact hkne) hk3
  have hfinal : (advance ParserState.init (pre ++ .StartElement f ::
      (b1 ++ field1 ++ b2 ++ field2 ++ b3))).fields.get k
      = firstSome (storedText t2) (storedText t1) := by
    rw [hstate, hget5, hget4, hget3, hget2, hb1, firstSome_none_right]
  refine ⟨_, ?_, hfinal, ?_, ?_⟩
  · rw [hshape, ParseNGUGML_until_close _ _ _ _ hfront hg]
  · intro ht2
    rw [hfinal]
    simp [storedText, ht2, firstSome]
  · intro ht2 ht1
    rw [hfinal]
    simp [storedText, ht2, ht1, firstSome]

theorem ParseNGUGML_repeated_field_witness :
    hasSuffix "name" "_feature" = false ∧ trimSpace " Second " ≠ "" ∧
    wellNested [] ([.StartElement "Test_layer"] ++ .StartElement "Test_feature" ::
        ([] ++ [.StartElement "name", .CharData "First", .EndElement "name"] ++
          [.CharData "\n"] ++ [.StartElement "name", .CharData " Second ", .EndElement "name"]
          ++ [] ++ .EndElement "Test_feature" :: [.EndElement "Test_layer"])) = true ∧
    ParseNGUGML ⟨[.StartElement "Test_layer"] ++ .StartElement "Test_feature" ::
        ([] ++ [.StartElement "name", .CharData "First", .EndElement "name"] ++
          [.CharData "\n"] ++ [.StartElement "name", .CharData " Second ", .EndElement "name"]
          ++ [] ++ .EndElement "Test_feature" :: [.EndElement "Test_layer"]), .eof⟩
      = .ok [("name", "Second")] ∧
    ∃ fields,
      ParseNGUGML ⟨[.StartElement "Test_layer"] ++ .StartElement "Test_feature" ::
        ([] ++ [.StartElement "name", .CharData "First", .EndElement "name"] ++
          [.CharData "\n"] ++ [.StartElement "name", .CharData " Second ", .EndElement "name"]
          ++ [] ++ .EndElement "Test_feature" :: [.EndElement "Test_layer"]), .eof⟩
        = .ok fields ∧
      fields.get "name" = firstSome (storedText " Second ") (storedText "First") ∧
      (trimSpace " Second " ≠ "" → fields.get "name" = some (trimSpace " Second ")) ∧
      (trimSpace " Second " = "" → trimSpace "First" ≠ "" →
        fields.get "name" = some (trimSpace "First")) :=
  ⟨by decide, by decide, by decide, by decide,
    ParseNGUGML_repeated_field [.StartElement "Test_layer"] [] [.CharData "\n"] []
      [.EndElement "Test_layer"] "Test_feature" "Test_feature" "name" "First" " Second " .eof
      (by decide) (by decide) (by decide) (by decide) (by decide) (by decide) (by decide)
      (by decide) (by decide) (by decide) (by decide)⟩

/-- C7 (counterexample): the field `name` occurs twice in one feature container and its
second occurrence holds only blank text; the mapping keeps "First", the text of the
first occurrence, and not the text of the second. -/
theorem ParseNGUGML_blank_repeat_counterexample :
    wellNested [] blankRepeatDoc = true ∧
    ParseNGUGML ⟨blankRepeatDoc, .eof⟩ = .ok [("name", "First")] := by
  decide

/-- C8 (as amended): for a stream of the strict decoder in which no closing feature tag
is read, a stream that reaches end-of-file yields the empty mapping and no error, a
stream that the decoder ends with an error yields that error, wrapped, and no mapping,
and a stream in which a feature container was opened is of the second kind. -/
theorem ParseNGUGML_no_closing_tag (r : TokenStream)
    (hstrict : r.ending = .eof → wellNested [] r.tokens = true)
    (hno : ∀ t ∈ r.tokens, t.isFeatureEnd = false) :
    (r.ending = .eof → ParseNGUGML r = .ok []) ∧
    (∀ msg, r.ending = .fail msg → ParseNGUGML r = .error ("parsing GML: " ++ msg)) ∧
    ((∃ t ∈ r.tokens, t.isFeatureStart = true) →
      ∃ msg, r.ending = .fail msg ∧ ParseNGUGML r = .error ("parsing GML: " ++ msg)) := by
  have hres := ParseNGUGML_no_close r hno
  have heof : r.ending = .eof → ParseNGUGML r = .ok [] := by
    intro h
    have hstart := (wellNested_no_start [] r.tokens (hstrict h) hno).2
    rw [hres, h, advance_outside ParserState.init r.tokens rfl hstart]
    rfl
  have hfail : ∀ msg, r.ending = .fail msg →
      ParseNGUGML r = .error ("parsing GML: " ++ msg) := by
    intro msg h
    rw [hres, h]
  refine ⟨heof, hfail, ?_⟩
  rintro ⟨t, ht, hstart⟩
  cases hend : r.ending with
  | eof =>
    have h0 := (wellNested_no_start [] r.tokens (hstrict hend) hno).2 t ht
    rw [h0] at hstart
    exact absurd hstart (by simp)
  | fail msg => exact ⟨msg, rfl, hfail msg hend⟩

theorem ParseNGUGML_no_closing_tag_witness :
    ((decode unclosedDocument).ending = .eof →
      wellNested [] (decode unclosedDocument).tokens = true) ∧
    (∀ t ∈ (decode unclosedDocument).tokens, t.isFeatureEnd = false) ∧
    (∃ t ∈ (decode unclosedDocument).tokens, t.isFeatureStart = true) ∧
    ∃ msg, (decode unclosedDocument).ending = .fail msg ∧
      ParseNGUGML (decode unclosedDocument) = .error ("parsing GML: " ++ msg) :=
  ⟨decode_strict unclosedDocument, by decide, by decide,
    (ParseNGUGML_no_closing_tag (decode unclosedDocument) (decode_strict unclosedDocument)
      (by decide)).2.2 (by decide)⟩

/-- C8 (counterexample): the document stops inside an open feature container after the
field `name` was read, with no closing feature tag. The decoder ends its stream with the
error for an unclosed element, and the parser returns that error, not an empty mapping
with no error. -/
theorem ParseNGUGML_unclosed_counterexample :
    (∀ t ∈ (decode unclosedDocument).tokens, t.isFeatureEnd = false) ∧
    (∃ t ∈ (decode unclosedDocument).tokens, t.isFeatureStart = true) ∧
    Token.CharData "First" ∈ (decode unclosedDocument).tokens ∧
    ParseNGUGML (decode unclosedDocument)
      = .error "parsing GML: XML syntax error on line 1: unexpected EOF" := by
  decide

/-- C9 (as amended): a token stream that the decoder reads through to end-of-file and
that holds no element whose local name ends in "_feature" yields the empty mapping and
no error. -/
theorem ParseNGUGML_no_feature (r : TokenStream) (heof : r.ending = .eof)
    (h : ∀ t ∈ r.tokens, t.isFeatureTag = false) :
    ParseNGUGML r = .ok [] := by
  rw [ParseNGUGML_no_close r (fun t ht => isFeatureEnd_of_tag t (h t ht)), heof,
    advance_outside ParserState.init r.tokens rfl
      (fun t ht => isFeatureStart_of_tag t (h t ht))]
  rfl

theorem ParseNGUGML_no_feature_witness :
    emptyDocument.wellFormed = true ∧ (decode emptyDocument).ending = .eof ∧
    (∀ t ∈ (decode emptyDocument).tokens, t.isFeatureTag = false) ∧
    ParseNGUGML (decode emptyDocument) = .ok [] :=
  ⟨by decide, by decide, by decide,
    ParseNGUGML_no_feature (decode emptyDocument) (by decide) (by decide)⟩

/-- C9 (counterexample): a well-formed document with no feature container whose XML
declaration names the encoding ISO-8859-1. The decoder of `ParseNGUGML` has no
`CharsetReader`, its first token is an error, and the parser returns that error, not an
empty mapping. -/
theorem ParseNGUGML_latin1_counterexample :
    latin1Document.wellFormed = true ∧
    (∀ t ∈ latin1Document.content, t.isFeatureTag = false) ∧
    ParseNGUGML (decode latin1Document) = .error
      "parsing GML: xml: encoding \"ISO-8859-1\" declared but Decoder.CharsetReader is nil" := by
  decide

/-! ## Theorems: validateCoords -/

theorem F64.le_of_not_lt (a b : F64) (ha : a ≠ .nan) (hb : b ≠ .nan)
    (h : a.lt b = false) : b.le a = true := by
  cases a <;> cases b <;> simp_all [F64.lt, F64.le]
  rename_i m1 e1 m2 e2
  rw [min_comm e2 e1]
  exact h

theorem F64.isFinite_of_bounds (a lo hi : F64) (hlo : lo.isFinite = true)
    (hhi : hi.isFinite = true) (h1 : lo.le a = true) (h2 : a.le hi = true) :
    a.isFinite = true := by
  cases a <;> cases lo <;> cases hi <;> simp_all [F64.le, F64.isFinite]

/-- What an error-free return of `validateCoords` does guarantee: the inputs are not
empty, the values returned are the parsed inputs, and each value that is not a NaN is
finite and inside the bounding box. -/
theorem validateCoords_ok (parseFloat : String → Option F64) (latStr lonStr : String)
    (lat lon : F64) (h : validateCoords parseFloat latStr lonStr = .ok (lat, lon)) :
    latStr ≠ "" ∧ lonStr ≠ "" ∧ parseFloat latStr = some lat ∧ parseFloat lonStr = some lon ∧
    (lat ≠ .nan → lat.isFinite = true ∧ latMin.le lat = true ∧ lat.le latMax = true) ∧
    (lon ≠ .nan → lon.isFinite = true ∧ lonMin.le lon = true ∧ lon.le lonMax = true) := by
  unfold validateCoords at h
  split at h
  · exact absurd h (by simp)
  · rename_i hempty
    push_neg at hempty
    split at h
    · exact absurd h (by simp)
    · rename_i lat0 hlat
      split at h
      · exact absurd h (by simp)
      · rename_i lon0 hlon
        split at h
        · exact absurd h (by simp)
        · rename_i hb
          simp only [Bool.or_eq_true, not_or, Bool.not_eq_true, F64.gt] at hb
          obtain ⟨⟨⟨hb1, hb2⟩, hb3⟩, hb4⟩ := hb
          have hpair : (lat0, lon0) = (lat, lon) := Except.ok.inj h
          obtain ⟨rfl, rfl⟩ := Prod.mk.inj hpair
          refine ⟨hempty.1, hempty.2, hlat, hlon, ?_, ?_⟩
          · intro hn
            have h1 := F64.le_of_not_lt lat0 latMin hn (by decide) hb1
            have h2 := F64.le_of_not_lt latMax lat0 (by decide) hn hb2
            exact ⟨F64.isFinite_of_bounds lat0 latMin latMax rfl rfl h1 h2, h1, h2⟩
          · intro hn
            have h1 := F64.le_of_not_lt lon0 lonMin hn (by decide) hb3
            have h2 := F64.le_of_not_lt lonMax lon0 (by decide) hn hb4
            exact ⟨F64.isFinite_of_bounds lon0 lonMin lonMax rfl rfl h1 h2, h1, h2⟩

/-- The table of `TestValidateCoords`, with the reference `strconv.ParseFloat`: the two
valid rows return their parsed coordinates, the five others an error. -/
theorem validateCoords_test_table :
    validateCoords parseFloatRef "59.91" "10.75"
      = .ok (.finite 8431582927367700 (-47), .finite 6051711999279104 (-49)) ∧
    validateCoords parseFloatRef "69.65" "18.96"
      = .ok (.finite 4901183031974298 (-46), .finite 5336765558434038 (-48)) ∧
    validateCoords parseFloatRef "" "10.75" = .error "lat and lon are required" ∧
    validateCoords parseFloatRef "59.91" "" = .error "lat and lon are required" ∧
    validateCoords parseFloatRef "abc" "10.75" = .error "invalid lat: must be a number" ∧
    validateCoords parseFloatRef "50.0" "10.75"
      = .error "coordinates out of Norway bounds (lat 57-82, lon -2 to 35)" ∧
    validateCoords parseFloatRef "59.91" "40.0"
      = .error "coordinates out of Norway bounds (lat 57-82, lon -2 to 35)" := by
  decide

/-! ## Theorems: parseNarvesenHTML -/

theorem readAllLimited_ok (r : BodyReader) (n : Nat) (body : List UInt8)
    (h : readAllLimited r n = .ok body) :
    (n ≤ r.data.length ∧ body = r.data.take n) ∨ (r.data.length < n ∧ body = r.data) := by
  unfold readAllLimited at h
  split at h
  · rename_i hle
    exact Or.inl ⟨hle, (Except.ok.inj h).symm⟩
  · rename_i hlt
    right
    refine ⟨Nat.lt_of_not_le hlt, ?_⟩
    split at h
    · exact (Except.ok.inj h).symm
    · exact absurd h (by simp)

/-- A request that passes the checks of `NVEHandler` and is answered upstream: the
response written is the error of the size-capped read, or the body handed on, in full
when it is valid JSON. -/
theorem NVEHandler_upstream (env : NVEEnv) (r : Request) (lat lon : F64) (resp : Response)
    (hm : r.Method = "GET") (hkey : env.nveAPIKey ≠ "")
    (hv : validateCoords env.parseFloat r.lat r.lon = .ok (lat, lon))
    (hreq : ∀ url, env.newRequestErr url = none)
    (hdo : ∀ url, env.doRequest url = .ok resp) :
    NVEHandler env r =
      match nveBody resp with
      | .error w => w
      | .ok body =>
        if env.jsonValid body then
          { status := 200, contentType := "application/json", body := .raw body }
        else writeJSONError 502 "upstream returned invalid JSON" := by
  unfold NVEHandler
  simp only [hm, hkey, hv, hreq, hdo, ne_eq, not_true_eq_false, if_false]
  cases nveBody resp with
  | error w => rfl
  | ok body =>
    cases hj : env.jsonValid body <;> simp [hj]

/-! ## Theorems: fetchNarvesenStores -/

end Norgesglass
